import Mathlib

/-!
Verification of the input-resolution and dataset-normalization pipeline of the
Auto EDA Generator (src/app.py).  Strings are embedded as `List Char`; the
Python string operations used by the source (`str.strip`, `str.replace`,
substring containment via `in`, `str.endswith`, `str.lower`, `pathlib.Path.stem`)
are modelled character-by-character with Python's semantics.
-/

set_option maxRecDepth 20000

namespace AutoEda

/-- The characters Python's `str.strip()` removes: exactly the codepoints on
which `str.isspace()` is true — the ASCII whitespace and separator controls,
NEL, NBSP, and the Unicode space/line/paragraph separators. -/
def pyWs (c : Char) : Bool :=
  c = ' ' || c = '\t' || c = '\n' || c = '\r' || c = '\x0b' || c = '\x0c' ||
  c = '\x1c' || c = '\x1d' || c = '\x1e' || c = '\x1f' || c = '\x85' || c = '\xa0' ||
  c = '\u1680' || (decide ('\u2000' ≤ c) && decide (c ≤ '\u200a')) ||
  c = '\u2028' || c = '\u2029' || c = '\u202f' || c = '\u205f' || c = '\u3000'

/-- Python `str.lstrip()`. -/
def lstrip : List Char → List Char
  | [] => []
  | c :: r => if pyWs c then lstrip r else c :: r

/-- Python `str.rstrip()`. -/
def rstrip (l : List Char) : List Char := (lstrip l.reverse).reverse

/-- Python `str.strip()`. -/
def pyStrip (l : List Char) : List Char := rstrip (lstrip l)

/-- Python substring containment (`needle in hay`). -/
def containsSub (needle : List Char) : List Char → Bool
  | [] => needle.isEmpty
  | c :: rest => needle.isPrefixOf (c :: rest) || containsSub needle rest

/-- Fuel-driven worker for `replaceAll`; consuming at least one character per
step, fuel equal to the haystack length always suffices. -/
def replaceAllF (needle repl : List Char) : Nat → List Char → List Char
  | _, [] => []
  | 0, l => l
  | f + 1, c :: rest =>
    if needle ≠ [] ∧ needle.isPrefixOf (c :: rest) then
      repl ++ replaceAllF needle repl f (List.drop (needle.length - 1) rest)
    else
      c :: replaceAllF needle repl f rest

/-- Python `hay.replace(needle, repl)`: left-to-right, non-overlapping
replacement of every occurrence. -/
def replaceAll (needle repl l : List Char) : List Char :=
  replaceAllF needle repl l.length l

/-- Python `s.endswith(suf)`. -/
def hasSuffix (suf l : List Char) : Bool := suf.isSuffixOf l

/-- ASCII lowering, modelling `str.lower()` for the characters relevant to the
HTML-marker test (no non-ASCII character lowers to `<`, `h`, `t`, `m` or `l`). -/
def lowerAscii (l : List Char) : List Char := l.map Char.toLower

/- ---------------- Remote Link Normalizer (src/app.py lines 305-328) ------- -/

def ghHost : List Char := "github.com".toList
def blobSeg : List Char := "/blob/".toList
def ghHttps : List Char := "https://github.com/".toList
def rawHttps : List Char := "https://raw.githubusercontent.com/".toList
def rawHost : List Char := "raw.githubusercontent.com".toList
def driveHost : List Char := "drive.google.com".toList
def driveUc : List Char := "https://drive.google.com/uc?export=download&id=".toList

/-- Character class of the regular expression `[a-zA-Z0-9_-]`. -/
def idChar (c : Char) : Bool := c.isAlpha || c.isDigit || c = '_' || c = '-'

/-- `re.search(r"/d/([a-zA-Z0-9_-]+)", s)`: leftmost occurrence of `/d/`
followed by at least one identifier character; returns the greedy capture. -/
def findDriveId : List Char → Option (List Char)
  | [] => none
  | c :: rest =>
    if c = '/' then
      match rest with
      | 'd' :: '/' :: rest2 =>
        let ident := rest2.takeWhile idChar
        if ident.isEmpty then findDriveId rest else some ident
      | _ => findDriveId rest
    else findDriveId rest

/-- The URL normalization of tab2 (src/app.py lines 305-328): strip the input;
a URL containing `github.com` and `/blob/` gets `https://github.com/` replaced
by `https://raw.githubusercontent.com/` and `/blob/` replaced by `/`; else a
URL containing `drive.google.com` is turned into a direct-download link when
the `/d/<id>` pattern is found and rejected (`csv_url = None`) otherwise; any
other URL passes through unchanged. -/
def normalize (u : List Char) : Option (List Char) :=
  let s := pyStrip u
  if containsSub ghHost s && containsSub blobSeg s then
    some (replaceAll blobSeg ['/'] (replaceAll ghHttps rawHttps s))
  else if containsSub driveHost s then
    match findDriveId s with
    | some ident => some (driveUc ++ ident)
    | none => none
  else
    some u

/-- Everything after the first `://`, if any. -/
def afterScheme : List Char → Option (List Char)
  | [] => none
  | c :: rest =>
    if [':', '/', '/'].isPrefixOf (c :: rest) then some ((c :: rest).drop 3)
    else afterScheme rest

def hostChar (c : Char) : Bool := !(c = '/' || c = '?' || c = '#')

/-- The host of a URL: what follows the scheme separator up to `/`, `?` or `#`.
Used only to state claims about "the URL's host". -/
def hostOf (s : List Char) : List Char :=
  match afterScheme s with
  | some t => t.takeWhile hostChar
  | none => []

example : normalize "https://github.com/acme/data/blob/main/x.csv".toList
    = some "https://raw.githubusercontent.com/acme/data/main/x.csv".toList := by decide

example : normalize "https://drive.google.com/file/d/1A2B3c/view".toList
    = some "https://drive.google.com/uc?export=download&id=1A2B3c".toList := by decide

example : normalize "https://drive.google.com/uc?export=download&id=1A2B3c".toList
    = none := by decide

example : normalize "https://drive.google.com/open?nope=1".toList = none := by decide

example : hostOf "https://drive.google.com/open?nope=1".toList = driveHost := by decide

/- ---------------- Naming Deriver (src/app.py lines 286 and 403) ----------- -/

/-- `pathlib.Path(s).name`: the final path component, ignoring trailing
slashes. -/
def lastComponent (s : List Char) : List Char :=
  let t := (s.reverse.dropWhile (fun c => c = '/')).reverse
  (t.reverse.takeWhile (fun c => c ≠ '/')).reverse

/-- `pathlib.Path(s).stem`: the final component with its last suffix removed;
a dot at the start or at the very end of the component does not count as a
suffix separator. -/
def pyStem (s : List Char) : List Char :=
  let name := lastComponent s
  let rev := name.reverse
  let ext := rev.takeWhile (fun c => c ≠ '.')
  let rem := rev.drop ext.length
  if rem.head? = some '.' ∧ rem.tail ≠ [] ∧ ext ≠ [] then rem.tail.reverse else name

def mergedSuffix : List Char := "_merged".toList

/-- The two input sources whose naming rules the claims mention. -/
inductive InputSource
  | localFile (name : List Char)
  | remoteDatasetMerged (datasetId : List Char)

/-- Name derivation: an uploaded file contributes `Path(file.name).stem`
(line 286); a Kaggle dataset in merge mode contributes
`dataset_name.replace("/", "_") + "_merged"` (line 403). -/
def deriveName : InputSource → List Char
  | .localFile n => pyStem n
  | .remoteDatasetMerged d => replaceAll ['/'] ['_'] d ++ mergedSuffix

example : deriveName (.localFile "sales_2024.xlsx".toList) = "sales_2024".toList := by decide

example : deriveName (.remoteDatasetMerged "heptapod/titanic".toList)
    = "heptapod_titanic_merged".toList := by decide

/- ---------------- Tabular datasets and the Format Reader ------------------ -/

/-- A cell is a scalar value or the missing-marker (`NaN`). -/
abbrev Cell := Option (List Char)

/-- An in-memory tabular dataset: ordered named columns and rows aligned with
them. -/
structure Frame where
  cols : List (List Char)
  rows : List (List Cell)
deriving DecidableEq

/-- Rows agree with the column list in length. -/
def Frame.ok (f : Frame) : Prop := ∀ r ∈ f.rows, r.length = f.cols.length

instance (f : Frame) : Decidable (Frame.ok f) :=
  inferInstanceAs (Decidable (∀ r ∈ f.rows, r.length = f.cols.length))

def emptyFrame : Frame := ⟨[], []⟩

/-- A Python exception value raised by a parser; `moduleNotFound` marks
`ModuleNotFoundError`, which `load_file` treats specially. -/
structure PyExn where
  moduleNotFound : Bool
  note : List Char
deriving DecidableEq

/-- A message shown through `st.error` by `load_file`. -/
inductive ReportMsg
  | couldNotRead (e : PyExn)
  | excelNeedsOpenpyxl
deriving DecidableEq

/-- The external parsing library: each reader either returns a dataframe or
raises, and the spreadsheet path needs the optional `openpyxl` dependency. -/
structure ParserEnv where
  readCsv : List Char → Except PyExn Frame
  readExcel : List Char → Except PyExn Frame
  readJson : List Char → Except PyExn Frame
  openpyxlAvailable : Bool

/-- A file handed to the Format Reader: declared name plus raw content. -/
structure FileInput where
  name : List Char
  content : List Char
deriving DecidableEq

def csvExt : List Char := ".csv".toList
def txtExt : List Char := ".txt".toList
def xlsxExt : List Char := ".xlsx".toList
def xlsExt : List Char := ".xls".toList
def jsonExt : List Char := ".json".toList

instance {ε α : Type} [DecidableEq ε] [DecidableEq α] : DecidableEq (Except ε α) :=
  fun x y =>
    match x, y with
    | .ok a, .ok b =>
      if h : a = b then .isTrue (by rw [h]) else .isFalse (by simp [h])
    | .error a, .error b =>
      if h : a = b then .isTrue (by rw [h]) else .isFalse (by simp [h])
    | .ok _, .error _ => .isFalse (by simp)
    | .error _, .ok _ => .isFalse (by simp)

/-- Outcome of the delimited-text arm of `load_file`. -/
def csvBranch (env : ParserEnv) (f : FileInput) :
    Except PyExn (Option Frame × List ReportMsg) :=
  match env.readCsv f.content with
  | .ok d => .ok (some d, [])
  | .error e => .ok (none, [.couldNotRead e])

/-- Outcome of the spreadsheet arm of `load_file`: a missing `openpyxl`
(or a `ModuleNotFoundError` from the reader) yields the dedicated message,
any other exception falls to the outer handler. -/
def excelBranch (env : ParserEnv) (f : FileInput) :
    Except PyExn (Option Frame × List ReportMsg) :=
  if env.openpyxlAvailable then
    match env.readExcel f.content with
    | .ok d => .ok (some d, [])
    | .error e =>
      if e.moduleNotFound then .ok (none, [.excelNeedsOpenpyxl])
      else .ok (none, [.couldNotRead e])
  else .ok (none, [.excelNeedsOpenpyxl])

/-- Outcome of the structured-record arm of `load_file`. -/
def jsonBranch (env : ParserEnv) (f : FileInput) :
    Except PyExn (Option Frame × List ReportMsg) :=
  match env.readJson f.content with
  | .ok d => .ok (some d, [])
  | .error e => .ok (none, [.couldNotRead e])

/-- `load_file` (src/app.py lines 216-231).  The result is `.ok (df?, msgs)`
where `df?` is the returned value (`None` embedded as `none`) and `msgs` the
`st.error` calls made; `.error` would represent an exception escaping to the
caller, which the `try`/`except Exception` wrapper prevents. -/
def load_file (env : ParserEnv) (f : FileInput) :
    Except PyExn (Option Frame × List ReportMsg) :=
  if hasSuffix csvExt f.name || hasSuffix txtExt f.name then
    csvBranch env f
  else if hasSuffix xlsxExt f.name || hasSuffix xlsExt f.name then
    excelBranch env f
  else if hasSuffix jsonExt f.name then
    jsonBranch env f
  else
    .ok (none, [])

/-- A concrete parsing environment whose readers always succeed with the empty
dataframe; used for closed instances. -/
def sampleEnv : ParserEnv :=
  ⟨fun _ => .ok emptyFrame, fun _ => .ok emptyFrame, fun _ => .ok emptyFrame, true⟩

example : load_file sampleEnv ⟨"data.parquet".toList, []⟩ = .ok (none, []) := by decide

example : load_file sampleEnv ⟨"t.csv".toList, []⟩ = .ok (some emptyFrame, []) := by decide

/- ---------------- Remote Fetcher (src/app.py lines 330-344) --------------- -/

inductive FetchError
  | httpError (status : Nat)
  | notRawContent
deriving DecidableEq

structure HttpResponse where
  status : Nat
  body : List Char
deriving DecidableEq

def htmlMarker : List Char := "<html".toList

/-- The response handling of the URL tab: `response.raise_for_status()` (which
raises exactly for statuses 400-599, the `requests` library semantics), then
the HTML protection `if "<html" in response.text.lower()`, then the body is
handed on for parsing. -/
def fetchCheck (r : HttpResponse) : Except FetchError (List Char) :=
  if 400 ≤ r.status ∧ r.status < 600 then .error (.httpError r.status)
  else if containsSub htmlMarker (lowerAscii r.body) then .error .notRawContent
  else .ok r.body

example : fetchCheck ⟨200, "<HTML><body>sign in</body></HTML>".toList⟩
    = .error .notRawContent := by decide

example : fetchCheck ⟨404, "<html>not found</html>".toList⟩
    = .error (.httpError 404) := by decide

/- ---------------- Multi-File Combiner, merge mode (lines 393-404) --------- -/

def srcName : List Char := "__source_file__".toList

/-- `df[name] = v` with a scalar: overwrite the column if the name exists,
otherwise append a new column at the end, broadcasting the value. -/
def setColumnScalar (f : Frame) (name v : List Char) : Frame :=
  if name ∈ f.cols then
    ⟨f.cols,
     f.rows.map (fun r => (f.cols.zip r).map (fun p => if p.1 = name then some v else p.2))⟩
  else
    ⟨f.cols ++ [name], f.rows.map (fun r => r ++ [some v])⟩

/-- Column set of `pd.concat` on mismatched frames: first-appearance order. -/
def unionCols : List Frame → List (List Char) :=
  List.foldl (fun acc f => acc ++ f.cols.filter (fun c => c ∉ acc)) []

/-- The cell of row `r` (aligned with `cols`) at column `c`; missing columns
give the missing-marker. -/
def lookupCell (cols : List (List Char)) (r : List Cell) (c : List Char) : Cell :=
  (List.lookup c (cols.zip r)).getD none

/-- Reindex one row of `f` to the target column list, filling absent columns
with the missing-marker. -/
def reindexRow (target : List (List Char)) (f : Frame) (r : List Cell) : List Cell :=
  target.map (fun c => lookupCell f.cols r c)

/-- `pd.concat(dfs, ignore_index=True)`: outer union of the columns, rows
stacked in order, cells of absent columns filled with the missing-marker. -/
def concatFrames (dfs : List Frame) : Frame :=
  ⟨unionCols dfs, (dfs.map (fun f => f.rows.map (reindexRow (unionCols dfs) f))).flatten⟩

/-- The merge-all mode (src/app.py lines 393-404): each listing entry carries
its parse result (`none` when `load_file` produced no dataframe for it); every
parsed frame gets the origin column `__source_file__` set to its file name,
the tagged frames are concatenated, and no dataset is produced when every
file failed (`if dfs:`). -/
def mergeAll (listing : List (List Char × Option Frame)) : Option Frame :=
  let dfs := listing.filterMap (fun p => p.2.map (fun d => setColumnScalar d srcName p.1))
  if dfs.isEmpty then none else some (concatFrames dfs)

def colX : List Char := "x".toList
def colY : List Char := "y".toList
def colZ : List Char := "z".toList

/-- Example frame `a.csv`: 3 rows, columns `[x, y]`. -/
def frameA : Frame :=
  ⟨[colX, colY],
   [[some "1".toList, some "2".toList],
    [some "3".toList, some "4".toList],
    [some "5".toList, some "6".toList]]⟩

/-- Example frame `b.csv`: 2 rows, columns `[x, z]`. -/
def frameB : Frame :=
  ⟨[colX, colZ],
   [[some "7".toList, some "8".toList],
    [some "9".toList, some "10".toList]]⟩

def exListing : List (List Char × Option Frame) :=
  [("a.csv".toList, some frameA), ("b.csv".toList, some frameB)]

/-- The merged result on the example listing. -/
def exMerged : Frame :=
  ⟨[colX, colY, srcName, colZ],
   [[some "1".toList, some "2".toList, some "a.csv".toList, none],
    [some "3".toList, some "4".toList, some "a.csv".toList, none],
    [some "5".toList, some "6".toList, some "a.csv".toList, none],
    [some "7".toList, none, some "b.csv".toList, some "8".toList],
    [some "9".toList, none, some "b.csv".toList, some "10".toList]]⟩

example : mergeAll exListing = some exMerged := by decide

/-- A frame that already owns a `__source_file__` column. -/
def frameClash : Frame :=
  ⟨[colX, srcName], [[some "1".toList, some "orig".toList]]⟩

example : mergeAll [("f.csv".toList, some frameClash)]
    = some ⟨[colX, srcName], [[some "1".toList, some "f.csv".toList]]⟩ := by decide

/- ======================= General lemma layer ============================== -/

theorem replaceAllF_succ (needle repl : List Char) :
    ∀ (f : Nat) (l : List Char), l.length ≤ f →
      replaceAllF needle repl (f + 1) l = replaceAllF needle repl f l := by
  intro f
  induction f with
  | zero =>
    intro l hl
    have : l = [] := List.length_eq_zero.mp (Nat.le_zero.mp hl)
    subst this; rfl
  | succ f ih =>
    intro l hl
    match l with
    | [] => rfl
    | c :: rest =>
      have hr : rest.length ≤ f := Nat.le_of_succ_le_succ hl
      simp only [replaceAllF]
      by_cases h : needle ≠ [] ∧ needle.isPrefixOf (c :: rest)
      · rw [if_pos h, if_pos h, ih _ (Nat.le_trans (by simpa using Nat.sub_le _ _) hr)]
      · rw [if_neg h, if_neg h, ih _ hr]

theorem replaceAllF_fuel (needle repl : List Char) :
    ∀ (f : Nat) (l : List Char), l.length ≤ f →
      replaceAllF needle repl f l = replaceAll needle repl l := by
  intro f
  induction f with
  | zero =>
    intro l hl
    have : l = [] := List.length_eq_zero.mp (Nat.le_zero.mp hl)
    subst this; rfl
  | succ f ih =>
    intro l hl
    rcases Nat.lt_or_ge l.length (f + 1) with h | h
    · rw [replaceAllF_succ needle repl f l (Nat.le_of_lt_succ h), ih _ (Nat.le_of_lt_succ h)]
    · have : l.length = f + 1 := Nat.le_antisymm hl h
      rw [replaceAll, this]

theorem replaceAll_cons (needle repl : List Char) (c : Char) (rest : List Char) :
    replaceAll needle repl (c :: rest) =
      if needle ≠ [] ∧ needle.isPrefixOf (c :: rest) then
        repl ++ replaceAll needle repl (List.drop (needle.length - 1) rest)
      else c :: replaceAll needle repl rest := by
  show replaceAllF needle repl (rest.length + 1) (c :: rest) = _
  show (if needle ≠ [] ∧ needle.isPrefixOf (c :: rest) then
      repl ++ replaceAllF needle repl rest.length (List.drop (needle.length - 1) rest)
    else c :: replaceAllF needle repl rest.length rest) = _
  by_cases h : needle ≠ [] ∧ needle.isPrefixOf (c :: rest)
  · rw [if_pos h, if_pos h,
      replaceAllF_fuel needle repl rest.length _ (by simpa using Nat.sub_le _ _)]
  · rw [if_neg h, if_neg h, replaceAllF_fuel needle repl rest.length rest (Nat.le_refl _)]

/-- A needle occurring nowhere in the haystack is not replaced. -/
theorem replaceAll_no_occurrence (needle repl : List Char) :
    ∀ (l : List Char), ¬ needle <:+: l → replaceAll needle repl l = l := by
  intro l
  induction l with
  | nil => intro _; rfl
  | cons c rest ih =>
    intro h
    rw [List.infix_cons_iff] at h
    push_neg at h
    rw [replaceAll_cons, if_neg, ih h.2]
    intro hc
    exact h.1 (List.isPrefixOf_iff_prefix.mp hc.2)

/-- Python `replace` rewrites the leftmost occurrence first and continues after
it: if no occurrence of the needle starts inside `p`, the haystack
`p ++ needle ++ b` becomes `p ++ repl ++ replace(b)`. -/
theorem replaceAll_first_occ (needle repl : List Char) (hne : needle ≠ []) :
    ∀ (p b : List Char),
      (∀ i, i < p.length → needle.isPrefixOf ((p ++ needle ++ b).drop i) = false) →
      replaceAll needle repl (p ++ needle ++ b) = p ++ repl ++ replaceAll needle repl b := by
  intro p
  induction p with
  | nil =>
    intro b _
    match hn : needle, hne with
    | n0 :: ntail, _ =>
      show replaceAll (n0 :: ntail) repl (n0 :: (ntail ++ b)) = _
      rw [replaceAll_cons, if_pos]
      · simp only [List.length_cons, Nat.add_sub_cancel, List.drop_left]
        rfl
      · exact ⟨by simp, List.isPrefixOf_iff_prefix.mpr (by simpa using List.prefix_append _ b)⟩
  | cons c p ih =>
    intro b hp
    have h0 : needle.isPrefixOf ((c :: p) ++ needle ++ b) = false := by
      have := hp 0 (by simp)
      simpa using this
    have hstep : replaceAll needle repl (c :: (p ++ needle ++ b)) =
        c :: replaceAll needle repl (p ++ needle ++ b) := by
      rw [replaceAll_cons, if_neg]
      rintro ⟨-, hpre⟩
      rw [show c :: (p ++ needle ++ b) = (c :: p) ++ needle ++ b by simp] at hpre
      simp only [h0] at hpre
      exact Bool.false_ne_true hpre
    have hrec := ih b (fun i hi => by
      have := hp (i + 1) (by simpa using Nat.succ_lt_succ hi)
      simpa using this)
    calc replaceAll needle repl ((c :: p) ++ needle ++ b)
        = replaceAll needle repl (c :: (p ++ needle ++ b)) := by simp
      _ = c :: replaceAll needle repl (p ++ needle ++ b) := hstep
      _ = c :: (p ++ repl ++ replaceAll needle repl b) := by rw [hrec]
      _ = (c :: p) ++ repl ++ replaceAll needle repl b := by simp

/-- Replacing a single character by a single character is a character map. -/
theorem replaceAll_single (a b : Char) (l : List Char) :
    replaceAll [a] [b] l = l.map (fun c => if c = a then b else c) := by
  induction l with
  | nil => rfl
  | cons c rest ih =>
    rw [replaceAll_cons]
    by_cases hc : c = a
    · rw [if_pos]
      · simp [hc, ih]
      · subst hc
        exact ⟨by simp, by simp [List.isPrefixOf]⟩
    · rw [if_neg]
      · simp [hc, ih]
      · rintro ⟨-, hpre⟩
        rw [List.isPrefixOf_iff_prefix] at hpre
        rcases hpre with ⟨t, ht⟩
        simp only [List.cons_append, List.nil_append, List.cons.injEq] at ht
        exact hc ht.1.symm

theorem lstrip_of_head (l : List Char) (h : ∀ c, l.head? = some c → pyWs c = false) :
    lstrip l = l := by
  cases l with
  | nil => rfl
  | cons c rest => simp [lstrip, h c rfl]

/-- `str.strip()` leaves a string untouched when neither end is whitespace. -/
theorem pyStrip_of_ends (l : List Char)
    (h1 : ∀ c, l.head? = some c → pyWs c = false)
    (h2 : ∀ c, l.getLast? = some c → pyWs c = false) :
    pyStrip l = l := by
  rw [pyStrip, lstrip_of_head l h1, rstrip, lstrip_of_head, List.reverse_reverse]
  intro c hc
  rw [List.head?_reverse] at hc
  exact h2 c hc

theorem containsSub_true_iff (needle : List Char) :
    ∀ (hay : List Char), containsSub needle hay = true ↔ needle <:+: hay := by
  intro hay
  induction hay with
  | nil => simp [containsSub, List.isEmpty_iff]
  | cons c rest ih =>
    simp [containsSub, List.isPrefixOf_iff_prefix, ih, List.infix_cons_iff]

theorem afterScheme_suffix :
    ∀ (s t : List Char), afterScheme s = some t → t <:+ s := by
  intro s
  induction s with
  | nil => intro t h; exact absurd h (by simp [afterScheme])
  | cons c rest ih =>
    intro t h
    rw [afterScheme] at h
    by_cases hc : [':', '/', '/'].isPrefixOf (c :: rest) = true
    · rw [if_pos hc] at h
      cases h
      exact List.drop_suffix 3 (c :: rest)
    · rw [if_neg hc] at h
      exact (ih t h).trans (List.suffix_cons c rest)

/-- A nonempty value of `hostOf` is a substring of the URL. -/
theorem hostOf_in_url (s h : List Char) (hh : hostOf s = h) (hne : h ≠ []) :
    h <:+: s := by
  rw [hostOf] at hh
  cases hsch : afterScheme s with
  | none => rw [hsch] at hh; exact absurd hh.symm hne
  | some t =>
    rw [hsch] at hh
    have h1 : h <+: t := hh ▸ List.takeWhile_prefix _
    have h2 : t <:+ s := afterScheme_suffix s t hsch
    exact h1.isInfix.trans h2.isInfix

/- ======================= Claim C1 ========================================= -/

/-- C1 counterexample: the claim "normalize is idempotent; in particular its
Google-Drive output, fed back, is returned unchanged rather than rejected" is
false on the code.  The normalizer's output for the Drive share link
`https://drive.google.com/file/d/1A2B3c/view` is the direct-download URL, and
feeding that URL back in is rejected (`UnrecognizedShareLink`, embedded as
`none`) because it contains `drive.google.com` but no `/d/<id>` segment. -/
theorem C1_counterexample :
    normalize "https://drive.google.com/file/d/1A2B3c/view".toList
      = some "https://drive.google.com/uc?export=download&id=1A2B3c".toList ∧
    normalize "https://drive.google.com/uc?export=download&id=1A2B3c".toList = none := by
  decide

/-- C1 (amended): `normalize` is idempotent on every output that re-triggers
neither rewrite branch — in particular on all passed-through URLs; the output
of the Google-Drive branch, fed back, is instead rejected (see the
counterexample). -/
theorem C1_amended (u v : List Char) (h : normalize u = some v)
    (h1 : (containsSub ghHost (pyStrip v) && containsSub blobSeg (pyStrip v)) = false)
    (h2 : containsSub driveHost (pyStrip v) = false) :
    normalize v = some v := by
  simp only [normalize, h1, h2, Bool.false_eq_true, if_false]

/-- C1 witness: a direct CSV URL passes through and is a fixed point. -/
theorem C1_witness :
    normalize "https://example.com/data.csv".toList
      = some "https://example.com/data.csv".toList :=
  C1_amended "https://example.com/data.csv".toList
    "https://example.com/data.csv".toList (by decide) (by decide) (by decide)

/- ======================= Claim C3 ========================================= -/

/-- C3 counterexample: the claim quantifies over every URL whose host is the
Drive domain, but the code branches on substring containment checked for the
GitHub markers first: a Drive-hosted URL whose query string mentions
`github.com` and `/blob/` is handled by the GitHub rewrite instead of the
Drive rule, even though it carries a `/d/<id>` segment. -/
theorem C3_counterexample :
    hostOf (pyStrip "https://drive.google.com/file/d/ABC/view?src=github.com/x/blob/y".toList)
      = driveHost ∧
    findDriveId (pyStrip "https://drive.google.com/file/d/ABC/view?src=github.com/x/blob/y".toList)
      = some ['A', 'B', 'C'] ∧
    normalize "https://drive.google.com/file/d/ABC/view?src=github.com/x/blob/y".toList
      = some "https://drive.google.com/file/d/ABC/view?src=github.com/x/y".toList ∧
    "https://drive.google.com/file/d/ABC/view?src=github.com/x/y".toList
      ≠ driveUc ++ ['A', 'B', 'C'] := by
  decide

/-- C3 (amended): for every URL whose host is the Google-Drive domain and which
does not also contain both GitHub markers, `normalize` returns the
direct-download URL built from the `/d/<id>` segment when that pattern occurs,
and fails (`UnrecognizedShareLink`, embedded as `none`) when it does not. -/
theorem C3_amended (u : List Char)
    (hhost : hostOf (pyStrip u) = driveHost)
    (hgh : (containsSub ghHost (pyStrip u) && containsSub blobSeg (pyStrip u)) = false) :
    normalize u = (findDriveId (pyStrip u)).map (fun ident => driveUc ++ ident) := by
  have hinf : driveHost <:+: pyStrip u := hostOf_in_url _ _ hhost (by decide)
  have hcont : containsSub driveHost (pyStrip u) = true :=
    (containsSub_true_iff _ _).mpr hinf
  simp only [normalize, hgh, hcont, Bool.false_eq_true, if_false, if_true]
  cases findDriveId (pyStrip u) <;> simp

/-- C3 witness: the spec's example `https://drive.google.com/open?nope=1` has
the Drive host, carries no `/d/<id>` segment, and is rejected. -/
theorem C3_witness :
    findDriveId (pyStrip "https://drive.google.com/open?nope=1".toList) = none ∧
    normalize "https://drive.google.com/open?nope=1".toList
      = (findDriveId (pyStrip "https://drive.google.com/open?nope=1".toList)).map
          (fun ident => driveUc ++ ident) :=
  ⟨by decide, C3_amended "https://drive.google.com/open?nope=1".toList (by decide) (by decide)⟩

/- ======================= Claim C4 ========================================= -/

/-- C4 counterexample: the claim quantifies over every URL whose host is the
GitHub domain, but the code only rewrites the literal prefix
`https://github.com/`: an `http://` GitHub blob URL keeps its host (only the
`/blob/` segment is dropped), so the produced URL does not point at the
raw-content domain as the claim requires. -/
theorem C4_counterexample :
    hostOf (pyStrip "http://github.com/acme/data/blob/main/x.csv".toList) = ghHost ∧
    containsSub blobSeg (pyStrip "http://github.com/acme/data/blob/main/x.csv".toList) = true ∧
    normalize "http://github.com/acme/data/blob/main/x.csv".toList
      = some "http://github.com/acme/data/main/x.csv".toList ∧
    containsSub rawHost "http://github.com/acme/data/main/x.csv".toList = false := by
  decide

/-- C4 (amended): for every URL of the shape
`https://github.com/<a>/blob/<b>` — with no whitespace at the end, no second
occurrence of `https://github.com/` after the leading one, no occurrence of
`/blob/` before the displayed one and none inside `<b>` — `normalize` rewrites
the host prefix to `https://raw.githubusercontent.com/` and removes the
`/blob/` segment, giving the direct-content URL. -/
theorem C4_amended (a b : List Char)
    (hb : ∀ c, b.getLast? = some c → pyWs c = false)
    (h1 : containsSub ghHttps (a ++ blobSeg ++ b) = false)
    (h2 : ∀ i, i < rawHttps.length + a.length →
      blobSeg.isPrefixOf ((rawHttps ++ a ++ blobSeg ++ b).drop i) = false)
    (h3 : containsSub blobSeg b = false) :
    normalize (ghHttps ++ a ++ blobSeg ++ b) = some (rawHttps ++ a ++ ['/'] ++ b) := by
  have hh : (ghHttps ++ a ++ blobSeg ++ b).head? = some 'h' := by
    rw [show ghHttps ++ a ++ blobSeg ++ b = ghHttps ++ (a ++ (blobSeg ++ b)) by simp]
    rw [List.head?_append]
    rfl
  have hstrip : pyStrip (ghHttps ++ a ++ blobSeg ++ b) = ghHttps ++ a ++ blobSeg ++ b := by
    apply pyStrip_of_ends
    · intro c hc
      rw [hh] at hc
      cases hc
      decide
    · intro c hc
      rw [List.getLast?_append] at hc
      cases hlb : b.getLast? with
      | some d =>
        rw [hlb] at hc
        cases hc
        exact hb c hlb
      | none =>
        rw [hlb] at hc
        rw [List.getLast?_append, show blobSeg.getLast? = some '/' from rfl] at hc
        cases hc
        decide
  have hc1 : containsSub ghHost (pyStrip (ghHttps ++ a ++ blobSeg ++ b)) = true := by
    rw [hstrip]
    apply (containsSub_true_iff _ _).mpr
    have hsub : ghHost <:+: ghHttps := (containsSub_true_iff _ _).mp (by decide)
    have hpre : ghHttps <+: ghHttps ++ a ++ blobSeg ++ b := by
      rw [show ghHttps ++ a ++ blobSeg ++ b = ghHttps ++ (a ++ (blobSeg ++ b)) by simp]
      exact List.prefix_append _ _
    exact hsub.trans hpre.isInfix
  have hc2 : containsSub blobSeg (pyStrip (ghHttps ++ a ++ blobSeg ++ b)) = true := by
    rw [hstrip]
    exact (containsSub_true_iff _ _).mpr ⟨ghHttps ++ a, b, by simp⟩
  have hcond : (containsSub ghHost (pyStrip (ghHttps ++ a ++ blobSeg ++ b)) &&
      containsSub blobSeg (pyStrip (ghHttps ++ a ++ blobSeg ++ b))) = true := by
    rw [hc1, hc2]
    rfl
  have e1 : replaceAll ghHttps rawHttps (ghHttps ++ a ++ blobSeg ++ b)
      = rawHttps ++ (a ++ blobSeg ++ b) := by
    have hni : ¬ ghHttps <:+: (a ++ blobSeg ++ b) := fun hinf => by
      rw [(containsSub_true_iff _ _).mpr hinf] at h1
      exact absurd h1 (by decide)
    rw [show ghHttps ++ a ++ blobSeg ++ b = [] ++ ghHttps ++ (a ++ blobSeg ++ b) by simp]
    rw [replaceAll_first_occ ghHttps rawHttps (by decide) [] _ (by intro i hi; simp at hi)]
    rw [replaceAll_no_occurrence _ _ _ hni]
    simp
  have e2 : replaceAll blobSeg ['/'] (rawHttps ++ (a ++ blobSeg ++ b))
      = rawHttps ++ a ++ ['/'] ++ b := by
    have hni : ¬ blobSeg <:+: b := fun hinf => by
      rw [(containsSub_true_iff _ _).mpr hinf] at h3
      exact absurd h3 (by decide)
    rw [show rawHttps ++ (a ++ blobSeg ++ b) = (rawHttps ++ a) ++ blobSeg ++ b by simp]
    rw [replaceAll_first_occ blobSeg ['/'] (by decide) (rawHttps ++ a) b ?hocc]
    rw [replaceAll_no_occurrence _ _ b hni]
    case hocc =>
      intro i hi
      exact h2 i (by simpa [List.length_append] using hi)
  rw [hstrip] at hcond
  simp only [normalize]
  rw [hstrip, hcond, if_pos rfl, e1, e2]

/-- C4 witness: the spec's own example URL, in decomposed form. -/
theorem C4_witness :
    normalize (ghHttps ++ "acme/data".toList ++ blobSeg ++ "main/x.csv".toList)
      = some (rawHttps ++ "acme/data".toList ++ ['/'] ++ "main/x.csv".toList) :=
  C4_amended "acme/data".toList "main/x.csv".toList
    (by decide) (by decide) (by decide) (by decide)

/- ======================= Claim C5 ========================================= -/

/-- C5 counterexample: the claim asserts `NotRawContent` for *every* response
whose body contains `<html`, but `raise_for_status()` runs first: a 404
response with an HTML body fails with the HTTP-status error, not with
`NotRawContent`. -/
theorem C5_counterexample :
    fetchCheck ⟨404, "<html>not found</html>".toList⟩ = .error (.httpError 404) ∧
    FetchError.httpError 404 ≠ FetchError.notRawContent := by
  decide

/-- C5 (amended): for every response that passes the status check (status
outside 400-599), a body containing `<html` case-insensitively fails with
`NotRawContent`, and the body is handed on for dataset parsing exactly when
the status check passes and the marker is absent. -/
theorem C5_amended (r : HttpResponse) (hstatus : ¬(400 ≤ r.status ∧ r.status < 600)) :
    (containsSub htmlMarker (lowerAscii r.body) = true →
      fetchCheck r = .error .notRawContent) ∧
    ((fetchCheck r).isOk = true ↔ containsSub htmlMarker (lowerAscii r.body) = false) := by
  constructor
  · intro hm
    simp only [fetchCheck, if_neg hstatus, hm, if_true]
  · cases hm : containsSub htmlMarker (lowerAscii r.body) with
    | true => simp [fetchCheck, if_neg hstatus, hm, Except.isOk, Except.toBool]
    | false => simp [fetchCheck, if_neg hstatus, hm, Except.isOk, Except.toBool]

/-- C5 witness: a 200 response whose body carries an upper-case HTML marker is
rejected as not-raw content. -/
theorem C5_witness :
    fetchCheck ⟨200, "<HTML><body>sign in</body></HTML>".toList⟩
      = .error .notRawContent :=
  (C5_amended ⟨200, "<HTML><body>sign in</body></HTML>".toList⟩ (by decide)).1 (by decide)

/- ======================= Claims C2 and C10 ================================ -/

/-- C2 counterexample: for an extension matching no reader (`.parquet`), the
claim requires a typed `UnsupportedFormat` failure rather than a silent absent
result; the code falls off the `if`/`elif` chain and returns `None` with no
`st.error` message at all — result `none` with an empty message list. -/
theorem C2_counterexample :
    load_file sampleEnv ⟨"data.parquet".toList, []⟩ = .ok (none, []) := by
  decide

/-- C2 (amended): `load_file` dispatches purely on the declared filename's
extension, case-sensitively, in the order `.csv`/`.txt` then `.xlsx`/`.xls`
then `.json`; a filename matching none of these yields the silent absent
result `None` with no reported message (not a typed failure). -/
theorem C2_amended (env : ParserEnv) (f : FileInput) :
    ((hasSuffix csvExt f.name || hasSuffix txtExt f.name) = true →
      load_file env f = csvBranch env f) ∧
    ((hasSuffix csvExt f.name || hasSuffix txtExt f.name) = false →
     (hasSuffix xlsxExt f.name || hasSuffix xlsExt f.name) = true →
      load_file env f = excelBranch env f) ∧
    ((hasSuffix csvExt f.name || hasSuffix txtExt f.name) = false →
     (hasSuffix xlsxExt f.name || hasSuffix xlsExt f.name) = false →
     hasSuffix jsonExt f.name = true →
      load_file env f = jsonBranch env f) ∧
    ((hasSuffix csvExt f.name || hasSuffix txtExt f.name) = false →
     (hasSuffix xlsxExt f.name || hasSuffix xlsExt f.name) = false →
     hasSuffix jsonExt f.name = false →
      load_file env f = .ok (none, [])) := by
  refine ⟨fun h1 => ?_, fun h1 h2 => ?_, fun h1 h2 h3 => ?_, fun h1 h2 h3 => ?_⟩
  · simp only [load_file, h1, if_true]
  · simp only [load_file, h1, h2, Bool.false_eq_true, if_false, if_true]
  · simp only [load_file, h1, h2, h3, Bool.false_eq_true, if_false, if_true]
  · simp only [load_file, h1, h2, h3, Bool.false_eq_true, if_false]

/-- C2 witness: a `.csv` filename is routed to the delimited-text reader. -/
theorem C2_witness :
    load_file sampleEnv ⟨"t.csv".toList, []⟩
      = csvBranch sampleEnv ⟨"t.csv".toList, []⟩ :=
  (C2_amended sampleEnv ⟨"t.csv".toList, []⟩).1 (by decide)

/-- C10: `load_file` is total at its boundary — whatever the declared name and
however the parsers fail (including any exception value), the embedded
`try`/`except Exception` structure always returns a value (`.ok`), never
propagates an exception (`.error`) to the caller. -/
theorem C10_thm (env : ParserEnv) (f : FileInput) :
    ∃ v, load_file env f = Except.ok v := by
  unfold load_file csvBranch excelBranch jsonBranch
  repeat' split
  all_goals exact ⟨_, rfl⟩

/-- C10 witness: a concrete instance of totality, with a parser environment
whose spreadsheet reader raises. -/
theorem C10_witness :
    ∃ v, load_file ⟨fun _ => .error ⟨false, []⟩, fun _ => .error ⟨false, []⟩,
      fun _ => .error ⟨false, []⟩, false⟩ ⟨"t.xlsx".toList, []⟩ = Except.ok v :=
  C10_thm _ _

/- ======================= Merge-mode lemma layer =========================== -/

theorem zip_map_snd (g : List Char × Cell → Cell) :
    ∀ (cols : List (List Char)) (r : List Cell),
      cols.zip ((cols.zip r).map g) = (cols.zip r).map (fun p => (p.1, g p)) := by
  intro cols
  induction cols with
  | nil => intro r; rfl
  | cons a cols ih =>
    intro r
    cases r with
    | nil => rfl
    | cons w r => simp [List.zip_cons_cons, ih r]

theorem lookup_map_value (nm : List Char) (v : List Char) :
    ∀ (l : List (List Char × Cell)) (c : List Char),
      List.lookup c (l.map (fun p => (p.1, if p.1 = nm then some v else p.2)))
        = (List.lookup c l).map (fun old => if c = nm then some v else old) := by
  intro l
  induction l with
  | nil => intro c; rfl
  | cons p l ih =>
    obtain ⟨k, w⟩ := p
    intro c
    simp only [List.map_cons, List.lookup_cons]
    cases hbe : c == k with
    | true =>
      have hck : c = k := eq_of_beq hbe
      simp [hck]
    | false => simp [hbe, ih c]

theorem lookup_zip_none :
    ∀ (cols : List (List Char)) (r : List Cell) (c : List Char), c ∉ cols →
      List.lookup c (cols.zip r) = none := by
  intro cols
  induction cols with
  | nil => intro r c _; rfl
  | cons a cols ih =>
    intro r c hc
    cases r with
    | nil => rfl
    | cons w r =>
      have h1 : c ≠ a := fun h => hc (h ▸ List.mem_cons_self a cols)
      have h2 : c ∉ cols := fun h => hc (List.mem_cons_of_mem a h)
      simp [List.zip_cons_cons, List.lookup_cons, beq_false_of_ne h1, ih r c h2]

theorem lookup_zip_mem :
    ∀ (cols : List (List Char)) (r : List Cell) (c : List Char), c ∈ cols →
      r.length = cols.length → ∃ w, List.lookup c (cols.zip r) = some w := by
  intro cols
  induction cols with
  | nil => intro r c hc; exact absurd hc (List.not_mem_nil c)
  | cons a cols ih =>
    intro r c hc hlen
    cases r with
    | nil => exact absurd hlen.symm (by simp)
    | cons w r =>
      by_cases hca : c = a
      · exact ⟨w, by simp [List.zip_cons_cons, List.lookup_cons, hca]⟩
      · have hc' : c ∈ cols := by
          cases List.mem_cons.mp hc with
          | inl h => exact absurd h hca
          | inr h => exact h
        obtain ⟨w', hw'⟩ := ih r c hc' (by simpa using hlen)
        exact ⟨w', by simp [List.zip_cons_cons, List.lookup_cons, beq_false_of_ne hca, hw']⟩

theorem lookup_append (c : List Char) :
    ∀ (l1 l2 : List (List Char × Cell)),
      List.lookup c (l1 ++ l2) = (List.lookup c l1).or (List.lookup c l2) := by
  intro l1 l2
  induction l1 with
  | nil => simp
  | cons p l1 ih =>
    obtain ⟨k, w⟩ := p
    simp only [List.cons_append, List.lookup_cons]
    cases hbe : c == k with
    | true => simp [hbe]
    | false => simp [hbe, ih]

/-- Overwriting an existing column: every cell of that column becomes the
broadcast value, all other columns are untouched. -/
theorem lookupCell_overwrite (cols : List (List Char)) (r : List Cell)
    (nm v c : List Char) (hmem : nm ∈ cols) (hlen : r.length = cols.length) :
    lookupCell cols ((cols.zip r).map (fun p => if p.1 = nm then some v else p.2)) c
      = if c = nm then some v else lookupCell cols r c := by
  unfold lookupCell
  rw [show ((cols.zip r).map (fun p => if p.1 = nm then some v else p.2))
      = (cols.zip r).map (fun p => (fun q => if q.1 = nm then some v else q.2) p) from rfl]
  rw [show cols.zip ((cols.zip r).map (fun p => if p.1 = nm then some v else p.2))
      = (cols.zip r).map (fun p => (p.1, if p.1 = nm then some v else p.2)) from
    zip_map_snd _ cols r]
  rw [lookup_map_value nm v (cols.zip r) c]
  by_cases hc : c = nm
  · subst hc
    obtain ⟨w, hw⟩ := lookup_zip_mem cols r c hmem hlen
    simp [hw]
  · simp only [if_neg hc]
    cases List.lookup c (cols.zip r) <;> rfl

/-- Appending a fresh column: its cells are the broadcast value, all original
columns are untouched. -/
theorem lookupCell_append_new (cols : List (List Char)) (r : List Cell)
    (nm v c : List Char) (hmem : nm ∉ cols) (hlen : r.length = cols.length) :
    lookupCell (cols ++ [nm]) (r ++ [some v]) c
      = if c = nm then some v else lookupCell cols r c := by
  unfold lookupCell
  rw [List.zip_append hlen.symm, lookup_append]
  by_cases hc : c = nm
  · subst hc
    rw [lookup_zip_none cols r c hmem]
    simp [List.lookup_cons]
  · rw [show List.lookup c ([nm].zip [some v]) = none from by
      simp [List.lookup_cons, beq_false_of_ne hc]]
    simp [Option.or_none, hc]

/-- The tagged frame reindexed to any target: the origin column reads the
broadcast file name, every other column reads the original cell (missing when
the file lacks the column). -/
theorem reindex_setColumn (f : Frame) (nm v : List Char) (hwf : Frame.ok f)
    (target : List (List Char)) :
    (setColumnScalar f nm v).rows.map (reindexRow target (setColumnScalar f nm v))
      = f.rows.map (fun r =>
          target.map (fun c => if c = nm then some v else lookupCell f.cols r c)) := by
  unfold setColumnScalar
  by_cases hmem : nm ∈ f.cols
  · rw [if_pos hmem]
    simp only [List.map_map]
    apply List.map_congr_left
    intro r hr
    unfold reindexRow
    apply List.map_congr_left
    intro c _
    exact lookupCell_overwrite f.cols r nm v c hmem (hwf r hr)
  · rw [if_neg hmem]
    simp only [List.map_map]
    apply List.map_congr_left
    intro r hr
    unfold reindexRow
    apply List.map_congr_left
    intro c _
    exact lookupCell_append_new f.cols r nm v c hmem (hwf r hr)

theorem setColumn_rows_length (f : Frame) (nm v : List Char) :
    (setColumnScalar f nm v).rows.length = f.rows.length := by
  unfold setColumnScalar
  by_cases hmem : nm ∈ f.cols
  · rw [if_pos hmem]
    simp
  · rw [if_neg hmem]
    simp

theorem mem_setColumn_cols (f : Frame) (nm v c : List Char) :
    c ∈ (setColumnScalar f nm v).cols ↔ c = nm ∨ c ∈ f.cols := by
  unfold setColumnScalar
  by_cases hmem : nm ∈ f.cols
  · rw [if_pos hmem]
    constructor
    · exact Or.inr
    · rintro (h | h)
      · exact h ▸ hmem
      · exact h
  · rw [if_neg hmem]
    simp [or_comm]

theorem mem_foldl_union (c : List Char) :
    ∀ (dfs : List Frame) (acc : List (List Char)),
      (c ∈ List.foldl (fun acc f => acc ++ f.cols.filter (fun x => x ∉ acc)) acc dfs ↔
        c ∈ acc ∨ ∃ f ∈ dfs, c ∈ f.cols) := by
  intro dfs
  induction dfs with
  | nil => intro acc; simp
  | cons f dfs ih =>
    intro acc
    simp only [List.foldl_cons, ih, List.mem_append, List.mem_filter, List.mem_cons,
      decide_eq_true_eq]
    constructor
    · rintro (((h | ⟨h, -⟩) | ⟨g, hg, hgc⟩))
      · exact Or.inl h
      · exact Or.inr ⟨f, Or.inl rfl, h⟩
      · exact Or.inr ⟨g, Or.inr hg, hgc⟩
    · rintro (h | ⟨g, (rfl | hg), hgc⟩)
      · by_cases hf : c ∈ f.cols ∧ c ∉ acc
        · exact Or.inl (Or.inr ⟨hf.1, by simpa using hf.2⟩)
        · exact Or.inl (Or.inl h)
      · by_cases hacc : c ∈ acc
        · exact Or.inl (Or.inl hacc)
        · exact Or.inl (Or.inr ⟨hgc, by simpa using hacc⟩)
      · exact Or.inr ⟨g, hg, hgc⟩

theorem mem_unionCols (dfs : List Frame) (c : List Char) :
    c ∈ unionCols dfs ↔ ∃ f ∈ dfs, c ∈ f.cols := by
  unfold unionCols
  rw [mem_foldl_union c dfs []]
  simp

/- ======================= Claim C6 ========================================= -/

/-- C6: on a listing of parseable files, merge mode produces a dataset whose
row count is the sum of the files' row counts, whose columns are exactly the
origin tag `__source_file__` together with the files' columns, and whose rows
are the files' rows in listing order, each extended so that the origin column
holds the row's file name and every column absent from the row's file holds
the missing-marker (`lookupCell` gives `none` there). -/
theorem C6_thm (listing : List (List Char × Frame)) (hne : listing ≠ [])
    (hwf : ∀ p ∈ listing, Frame.ok p.2) :
    ∃ g, mergeAll (listing.map (fun p => (p.1, some p.2))) = some g ∧
      g.rows.length = (listing.map (fun p => p.2.rows.length)).sum ∧
      (∀ c, c ∈ g.cols ↔ (c = srcName ∨ ∃ p ∈ listing, c ∈ p.2.cols)) ∧
      g.rows = (listing.map (fun p =>
        p.2.rows.map (fun r =>
          g.cols.map (fun c =>
            if c = srcName then some p.1 else lookupCell p.2.cols r c)))).flatten := by
  have hdfs : (listing.map (fun p => (p.1, some p.2))).filterMap
      (fun p => p.2.map (fun d => setColumnScalar d srcName p.1))
      = listing.map (fun p => setColumnScalar p.2 srcName p.1) := by
    rw [List.filterMap_map]
    exact congrFun (List.filterMap_eq_map (fun p => setColumnScalar p.2 srcName p.1)) listing
  have hemp : (listing.map (fun p => setColumnScalar p.2 srcName p.1)).isEmpty = false := by
    cases listing with
    | nil => exact absurd rfl hne
    | cons p l => rfl
  refine ⟨concatFrames (listing.map (fun p => setColumnScalar p.2 srcName p.1)), ?_, ?_, ?_, ?_⟩
  · simp only [mergeAll]
    rw [hdfs, hemp]
    simp
  · show (List.map _ _).flatten.length = _
    simp only [List.length_flatten, List.map_map]
    congr 1
    apply List.map_congr_left
    intro p _
    simp [Function.comp, setColumn_rows_length]
  · intro c
    show c ∈ unionCols _ ↔ _
    rw [mem_unionCols]
    constructor
    · rintro ⟨g, hg, hgc⟩
      obtain ⟨p, hp, rfl⟩ := List.mem_map.mp hg
      rcases (mem_setColumn_cols _ _ _ _).mp hgc with h | h
      · exact Or.inl h
      · exact Or.inr ⟨p, hp, h⟩
    · rintro (rfl | ⟨p, hp, hpc⟩)
      · cases listing with
        | nil => exact absurd rfl hne
        | cons p0 l =>
          exact ⟨setColumnScalar p0.2 srcName p0.1,
            List.mem_map.mpr ⟨p0, List.mem_cons_self _ _, rfl⟩,
            (mem_setColumn_cols _ _ _ _).mpr (Or.inl rfl)⟩
      · exact ⟨setColumnScalar p.2 srcName p.1,
          List.mem_map.mpr ⟨p, hp, rfl⟩,
          (mem_setColumn_cols _ _ _ _).mpr (Or.inr hpc)⟩
  · show (List.map _ (List.map _ listing)).flatten = _
    rw [List.map_map]
    congr 1
    apply List.map_congr_left
    intro p hp
    exact reindex_setColumn p.2 srcName p.1 (hwf p hp) _

/-- C6 witness: the spec's example listing — `a.csv` with 3 rows and columns
`[x, y]`, `b.csv` with 2 rows and columns `[x, z]` — merges to 5 rows whose
column set is exactly `{x, y, z, __source_file__}`; the fully evaluated result
`exMerged` also shows `y` missing on the `b.csv` rows and `z` missing on the
`a.csv` rows. -/
theorem C6_witness :
    (∃ g, mergeAll exListing = some g ∧ g.rows.length = 5 ∧
      (∀ c, c ∈ g.cols ↔ (c = srcName ∨ c ∈ frameA.cols ∨ c ∈ frameB.cols))) ∧
    mergeAll exListing = some exMerged := by
  constructor
  · obtain ⟨g, h1, h2, h3, -⟩ :=
      C6_thm [("a.csv".toList, frameA), ("b.csv".toList, frameB)]
        (List.cons_ne_nil _ _) (by decide)
    refine ⟨g, h1, by rw [h2]; rfl, fun c => ?_⟩
    rw [h3 c]
    constructor
    · rintro (h | ⟨p, hp, hc⟩)
      · exact Or.inl h
      · simp only [List.mem_cons, List.not_mem_nil, or_false] at hp
        rcases hp with rfl | rfl
        · exact Or.inr (Or.inl hc)
        · exact Or.inr (Or.inr hc)
    · rintro (h | h | h)
      · exact Or.inl h
      · exact Or.inr ⟨("a.csv".toList, frameA), List.mem_cons_self _ _, h⟩
      · exact Or.inr ⟨("b.csv".toList, frameB),
          List.mem_cons_of_mem _ (List.mem_cons_self _ _), h⟩
  · decide

/- ======================= Claim C7 ========================================= -/

/-- C7: merge mode yields no merged dataset exactly when every file in the
listing failed to parse (the spec's `NoReadableFiles` outcome), and the
failing files are skipped: the merge of a listing equals the merge of its
sub-listing of successfully parsed files. -/
theorem C7_thm (listing : List (List Char × Option Frame)) :
    (mergeAll listing = none ↔ ∀ p ∈ listing, p.2 = none) ∧
    mergeAll (listing.filter (fun p => p.2.isSome)) = mergeAll listing := by
  constructor
  · simp only [mergeAll]
    by_cases he : (listing.filterMap
        (fun p => p.2.map (fun d => setColumnScalar d srcName p.1))).isEmpty = true
    · rw [if_pos he]
      rw [List.isEmpty_iff, List.filterMap_eq_nil_iff] at he
      constructor
      · intro _ p hp
        exact Option.map_eq_none'.mp (he p hp)
      · intro _
        rfl
    · rw [if_neg he]
      constructor
      · intro h
        exact absurd h (by simp)
      · intro hall
        refine absurd (List.isEmpty_iff.mpr (List.filterMap_eq_nil_iff.mpr ?_)) he
        intro p hp
        rw [hall p hp]
        rfl
  · have hfil : (listing.filter (fun p => p.2.isSome)).filterMap
        (fun p => p.2.map (fun d => setColumnScalar d srcName p.1))
        = listing.filterMap (fun p => p.2.map (fun d => setColumnScalar d srcName p.1)) := by
      induction listing with
      | nil => rfl
      | cons p l ih =>
        cases hp : p.2 with
        | none => simp [List.filter_cons, List.filterMap_cons, hp, ih]
        | some d => simp [List.filter_cons, List.filterMap_cons, hp, ih]
    simp only [mergeAll]
    rw [hfil]

/-- C7 witness: one unreadable file beside one readable file — the merge is
still produced from the readable one, and failure is reached exactly when all
entries fail. -/
theorem C7_witness :
    (mergeAll [("bad.csv".toList, none), ("a.csv".toList, some frameA)] = none ↔
      ∀ p ∈ [(("bad.csv".toList : List Char), (none : Option Frame)),
             ("a.csv".toList, some frameA)], p.2 = none) ∧
    mergeAll ([(("bad.csv".toList : List Char), (none : Option Frame)),
               ("a.csv".toList, some frameA)].filter (fun p => p.2.isSome))
      = mergeAll [("bad.csv".toList, none), ("a.csv".toList, some frameA)] :=
  C7_thm [("bad.csv".toList, none), ("a.csv".toList, some frameA)]

/- ======================= Claim C9 ========================================= -/

/-- C9 counterexample: on a listing whose file already contains a
`__source_file__` column (value `"orig"`), the claim requires a fast
`MalformedContent` failure; the code instead succeeds and silently overwrites
the column with the origin file name `"f.csv"`. -/
theorem C9_counterexample :
    mergeAll [("f.csv".toList, some frameClash)]
      = some ⟨[colX, srcName], [[some "1".toList, some "f.csv".toList]]⟩ := by
  decide

/-- C9 (amended): when a parsed file already owns the `__source_file__`
column, the merge does not fail — it keeps the file's column layout and
silently overwrites every cell of that column with the origin file name. -/
theorem C9_amended (n : List Char) (f : Frame) (hwf : Frame.ok f)
    (hmem : srcName ∈ f.cols) :
    mergeAll [(n, some f)] = some ⟨f.cols,
      f.rows.map (fun r =>
        f.cols.map (fun c => if c = srcName then some n else lookupCell f.cols r c))⟩ := by
  have hcols : (setColumnScalar f srcName n).cols = f.cols := by
    unfold setColumnScalar
    rw [if_pos hmem]
  have hunion : unionCols [setColumnScalar f srcName n] = f.cols := by
    unfold unionCols
    simp only [List.foldl_cons, List.foldl_nil, List.nil_append]
    rw [List.filter_eq_self.mpr (fun a _ => by simp), hcols]
  have hmrg : mergeAll [(n, some f)]
      = some (concatFrames [setColumnScalar f srcName n]) := by
    simp [mergeAll, List.filterMap_cons]
  rw [hmrg]
  congr 1
  unfold concatFrames
  rw [Frame.mk.injEq]
  refine ⟨hunion, ?_⟩
  simp only [List.map_cons, List.map_nil, List.flatten_cons, List.flatten_nil,
    List.append_nil]
  rw [hunion]
  exact reindex_setColumn f srcName n hwf f.cols

/-- C9 witness: the amended behaviour evaluated on the clashing frame. -/
theorem C9_witness :
    mergeAll [("f.csv".toList, some frameClash)]
      = some ⟨frameClash.cols,
        frameClash.rows.map (fun r =>
          frameClash.cols.map (fun c =>
            if c = srcName then some "f.csv".toList
            else lookupCell frameClash.cols r c))⟩ :=
  C9_amended "f.csv".toList frameClash (by decide) (by decide)

/- ======================= Claim C8 ========================================= -/

theorem dropWhile_eq_self_of_all (p : Char → Bool) (l : List Char)
    (h : ∀ c ∈ l, p c = false) : l.dropWhile p = l := by
  cases l with
  | nil => rfl
  | cons c r => simp [List.dropWhile_cons, h c (List.mem_cons_self c r)]

theorem takeWhile_eq_self_of_all (p : Char → Bool) :
    ∀ (l : List Char), (∀ c ∈ l, p c = true) → l.takeWhile p = l := by
  intro l
  induction l with
  | nil => intro _; rfl
  | cons c r ih =>
    intro h
    simp [List.takeWhile_cons, h c (List.mem_cons_self c r),
      ih (fun d hd => h d (List.mem_cons_of_mem c hd))]

theorem takeWhile_append_of_all (p : Char → Bool) (l2 : List Char) :
    ∀ (l1 : List Char), (∀ c ∈ l1, p c = true) →
      (l1 ++ l2).takeWhile p = l1 ++ l2.takeWhile p := by
  intro l1
  induction l1 with
  | nil => intro _; rfl
  | cons c r ih =>
    intro h
    simp [List.takeWhile_cons, h c (List.mem_cons_self c r),
      ih (fun d hd => h d (List.mem_cons_of_mem c hd))]

/-- A path without separators is its own final component. -/
theorem lastComponent_no_slash (s : List Char) (h : '/' ∉ s) : lastComponent s = s := by
  have hall : ∀ c ∈ s.reverse, c ≠ '/' := fun c hc he =>
    h (he ▸ List.mem_reverse.mp hc)
  simp only [lastComponent]
  rw [dropWhile_eq_self_of_all _ _ (fun c hc => by simp [hall c hc]),
    List.reverse_reverse,
    takeWhile_eq_self_of_all _ _ (fun c hc => by simp [hall c hc]),
    List.reverse_reverse]

/-- `Path.stem` on a plain file name `base.ext` (nonempty base, nonempty
dot-free extension) is `base`. -/
theorem pyStem_split (base ext : List Char) (hbase : base ≠ []) (hext : ext ≠ [])
    (hdot : '.' ∉ ext) (hsl : '/' ∉ base ++ '.' :: ext) :
    pyStem (base ++ '.' :: ext) = base := by
  have hlast : lastComponent (base ++ '.' :: ext) = base ++ '.' :: ext :=
    lastComponent_no_slash _ hsl
  have hrev : (base ++ '.' :: ext).reverse = ext.reverse ++ '.' :: base.reverse := by
    rw [List.reverse_append, List.reverse_cons]
    simp
  have htake : (ext.reverse ++ '.' :: base.reverse).takeWhile (fun c => c ≠ '.')
      = ext.reverse := by
    rw [takeWhile_append_of_all _ _ _ (fun c hc => by
      simp [show c ≠ '.' from fun he => hdot (he ▸ List.mem_reverse.mp hc)])]
    simp [List.takeWhile_cons]
  have hdrop : (ext.reverse ++ '.' :: base.reverse).drop ext.reverse.length
      = '.' :: base.reverse := List.drop_left _ _
  simp only [pyStem, hlast, hrev, htake, hdrop]
  rw [if_pos]
  · simp
  · refine ⟨rfl, ?_, ?_⟩
    · simpa using hbase
    · simpa using hext

/-- C8: `deriveName` is a function of the input source (hence deterministic);
a local file named `base.ext` derives `base`, and a Kaggle dataset
`owner/name` in merge mode derives `owner_name_merged`. -/
theorem C8_thm (base ext owner nm : List Char) (hbase : base ≠ []) (hext : ext ≠ [])
    (hdot : '.' ∉ ext) (hsl : '/' ∉ base ++ '.' :: ext)
    (how : '/' ∉ owner) (hnm : '/' ∉ nm) :
    deriveName (.localFile (base ++ '.' :: ext)) = base ∧
    deriveName (.remoteDatasetMerged (owner ++ '/' :: nm))
      = (owner ++ '_' :: nm) ++ mergedSuffix := by
  constructor
  · exact pyStem_split base ext hbase hext hdot hsl
  · show replaceAll ['/'] ['_'] (owner ++ '/' :: nm) ++ mergedSuffix = _
    rw [replaceAll_single]
    congr 1
    have h1 : owner.map (fun c => if c = '/' then '_' else c) = owner := by
      have hid : ∀ c ∈ owner, (if c = '/' then '_' else c) = id c :=
        fun c hc => if_neg (fun (he : c = '/') => how (he ▸ hc))
      rw [List.map_congr_left hid, List.map_id]
    have h2 : nm.map (fun c => if c = '/' then '_' else c) = nm := by
      have hid : ∀ c ∈ nm, (if c = '/' then '_' else c) = id c :=
        fun c hc => if_neg (fun (he : c = '/') => hnm (he ▸ hc))
      rw [List.map_congr_left hid, List.map_id]
    rw [List.map_append, List.map_cons, h1, h2, if_pos rfl]

/-- C8 witness: the spec's examples — `sales_2024.xlsx` derives `sales_2024`,
and `heptapod/titanic` in merge mode derives `heptapod_titanic_merged`. -/
theorem C8_witness :
    deriveName (.localFile ("sales_2024".toList ++ '.' :: "xlsx".toList))
      = "sales_2024".toList ∧
    deriveName (.remoteDatasetMerged ("heptapod".toList ++ '/' :: "titanic".toList))
      = ("heptapod".toList ++ '_' :: "titanic".toList) ++ mergedSuffix :=
  C8_thm "sales_2024".toList "xlsx".toList "heptapod".toList "titanic".toList
    (by decide) (by decide) (by decide) (by decide) (by decide) (by decide)

end AutoEda
